import Mathlib

namespace Aap

/-!
Verification of the YAML bulk-rename scripts (aap_prefix3.py / aap_prefix4.py).

The Document Tree is a recursive value: ordered mappings from string keys to
trees, ordered sequences of trees, or scalars (string, integer, boolean, null).
Python dicts are modelled as association lists preserving insertion order;
the shared lookup dict is an association list with in-place update semantics.
-/

inductive Tree where
| map : List (String × Tree) → Tree
| seq : List Tree → Tree
| str : String → Tree
| int : Int → Tree
| bool : Bool → Tree
| null : Tree

abbrev Lookup := List (String × String)

mutual

/-- Python structural equality `==` / `!=` on Document Tree values. -/
def Tree.beq : Tree → Tree → Bool
| .map es1, .map es2 => beqEntries es1 es2
| .seq l1, .seq l2 => beqList l1 l2
| .str a, .str b => a == b
| .int a, .int b => a == b
| .bool a, .bool b => a == b
| .null, .null => true
| _, _ => false

def beqEntries : List (String × Tree) → List (String × Tree) → Bool
| [], [] => true
| (k1, v1) :: r1, (k2, v2) :: r2 => k1 == k2 && Tree.beq v1 v2 && beqEntries r1 r2
| _, _ => false

def beqList : List Tree → List Tree → Bool
| [], [] => true
| a :: r1, b :: r2 => Tree.beq a b && beqList r1 r2
| _, _ => false

end

/-- Python `s.startswith(p)`: the code points of `p` are an initial segment
of the code points of `s`. -/
def startswith (s p : String) : Bool := p.data.isPrefixOf s.data

/-- Reading a Python dict: value of the first (only) entry with the given key. -/
def lookGet : Lookup → String → Option String
| [], _ => none
| (k', v') :: rest, k => if k' = k then some v' else lookGet rest k

/-- Python dict assignment `d[k] = v`: overwrite the existing entry in place,
or append a new entry at the end (insertion order preserved). -/
def dictSet : Lookup → String → String → Lookup
| [], k, v => [(k, v)]
| (k', v') :: rest, k, v =>
  if k' = k then (k, v) :: rest else (k', v') :: dictSet rest k v

/-- Python `isinstance(value, str)` on a Document Tree value. -/
def Tree.isStr : Tree → Bool
| .str _ => true
| _ => false

/-- The string payload of a string node (unused on other nodes). -/
def Tree.strVal : Tree → String
| .str s => s
| _ => ""

mutual

/-- Embeds `recursive_prefix_lookup(data, prefix, keys_to_prefix, lookup)` of
aap_prefix4.py (identical in aap_prefix3.py).  The mutable `lookup` dict is
threaded as explicit state, in the evaluation order of the Python loops. -/
def recursive_prefix_lookup (data : Tree) (pfx : String) (keys : List String)
    (lk : Lookup) : Tree × Lookup :=
match data with
| .map es => let r := rwEntries es pfx keys lk; (.map r.1, r.2)
| .seq items => let r := rwItems items pfx keys lk; (.seq r.1, r.2)
| t => (t, lk)

/-- The dict loop of `recursive_prefix_lookup`: each `(key, value)` pair in
order, threading the lookup state. -/
def rwEntries (es : List (String × Tree)) (pfx : String) (keys : List String)
    (lk : Lookup) : List (String × Tree) × Lookup :=
match es with
| [] => ([], lk)
| (key, value) :: rest =>
  if keys.contains key && value.isStr then
    if startswith value.strVal pfx then
      let r := rwEntries rest pfx keys lk
      ((key, value) :: r.1, r.2)
    else
      let nv := pfx ++ value.strVal
      let r := rwEntries rest pfx keys (dictSet lk value.strVal nv)
      ((key, .str nv) :: r.1, r.2)
  else
    let r1 := recursive_prefix_lookup value pfx keys lk
    let r2 := rwEntries rest pfx keys r1.2
    ((key, r1.1) :: r2.1, r2.2)

/-- The list comprehension of `recursive_prefix_lookup`: items left to right,
threading the lookup state. -/
def rwItems (items : List Tree) (pfx : String) (keys : List String)
    (lk : Lookup) : List Tree × Lookup :=
match items with
| [] => ([], lk)
| item :: rest =>
  let r1 := recursive_prefix_lookup item pfx keys lk
  let r2 := rwItems rest pfx keys r1.2
  (r1.1 :: r2.1, r2.2)

end

/-- A Change Record `(path, old_value, new_value)`; `none` marks a value
absent at this path in that tree. -/
abbrev DRec := String × Option Tree × Option Tree

/-- The key view `d.keys()` of a mapping node. -/
def keysOf (es : List (String × Tree)) : List String := es.map Prod.fst

/-- Python `d1.keys() | d2.keys()`: set union of the key views.  Python's set
iteration order is unspecified; it is fixed here as d1's keys followed by the
keys appearing only in d2. -/
def unionKeys (ks1 ks2 : List String) : List String :=
ks1 ++ ks2.filter (fun k => !ks1.contains k)

/-- Reading a mapping node like a Python dict: `d[k]` / `k in d`. -/
def dictGet : List (String × Tree) → String → Option Tree
| [], _ => none
| (k', v') :: rest, k => if k' = k then some v' else dictGet rest k

/-- A value fetched from a mapping node is structurally smaller than the
entry list; justifies termination of the differ. -/
theorem sizeOf_dictGet : ∀ (es : List (String × Tree)) (k : String) (v : Tree),
    dictGet es k = some v → sizeOf v < sizeOf es := by
  intro es
  induction es with
  | nil => intro k v h; simp [dictGet] at h
  | cons hd tl ih =>
    intro k v h
    obtain ⟨k', v'⟩ := hd
    by_cases hk : k' = k
    · simp [dictGet, hk] at h
      subst h
      simp
      omega
    · simp [dictGet, hk] at h
      have := ih k v h
      simp
      omega

mutual

/-- Embeds `diff_dict(d1, d2, path)` of aap_prefix4.py (identical in
aap_prefix3.py). -/
def diff_dict (d1 d2 : Tree) (path : String) : List DRec :=
match d1, d2 with
| .map es1, .map es2 => diffKeys (unionKeys (keysOf es1) (keysOf es2)) es1 es2 path
| .seq l1, .seq l2 =>
  diffPairs l1 l2 path 0
  ++ (List.enumFrom l1.length (l2.drop l1.length)).map
      (fun iv => (path ++ "[" ++ toString iv.1 ++ "]", none, some iv.2))
  ++ (List.enumFrom l2.length (l1.drop l2.length)).map
      (fun iv => (path ++ "[" ++ toString iv.1 ++ "]", some iv.2, none))
| t1, t2 => if Tree.beq t1 t2 then [] else [(path, some t1, some t2)]
termination_by (sizeOf d1 + sizeOf d2, 0)
decreasing_by
  all_goals simp_wf
  · apply Prod.Lex.left; omega
  · apply Prod.Lex.left; omega

/-- The key loop of `diff_dict`'s both-mapping case. -/
def diffKeys (ks : List String) (es1 es2 : List (String × Tree)) (path : String) :
    List DRec :=
match ks with
| [] => []
| k :: rest =>
  (let p := if path = "" then k else path ++ "." ++ k
   match h1 : dictGet es1 k, h2 : dictGet es2 k with
   | some v1, some v2 => diff_dict v1 v2 p
   | some v1, none => [(p, some v1, none)]
   | none, some v2 => [(p, none, some v2)]
   | none, none => [])
  ++ diffKeys rest es1 es2 path
termination_by (sizeOf es1 + sizeOf es2, ks.length)
decreasing_by
  · apply Prod.Lex.left
    have s1 := sizeOf_dictGet _ _ _ h1
    have s2 := sizeOf_dictGet _ _ _ h2
    omega
  · apply Prod.Lex.right
    simp

/-- The `enumerate(zip(d1, d2))` loop of `diff_dict`'s both-sequence case:
pairwise comparison stopping at the shorter list. -/
def diffPairs (l1 l2 : List Tree) (path : String) (i : Nat) : List DRec :=
match l1, l2 with
| v1 :: r1, v2 :: r2 =>
  diff_dict v1 v2 (path ++ "[" ++ toString i ++ "]") ++ diffPairs r1 r2 path (i + 1)
| _, _ => []
termination_by (sizeOf l1 + sizeOf l2, 0)
decreasing_by
  all_goals simp_wf
  · apply Prod.Lex.left; omega
  · apply Prod.Lex.left; omega

end

/-- Which scalar style the nested representer `represent_multiline_str` of
`process_yaml_file` chooses for a string value. -/
inductive Style where
| literal
| plain

/-- Embeds `represent_multiline_str(dumper, data)` of aap_prefix4.py
(identical in aap_prefix3.py): block style for strings containing a newline
or any of double quote, single quote, backslash, `<`, `>`. -/
def represent_multiline_str (s : String) : Style :=
if s.data.contains '\n' || (['"', '\x27', '\\', '<', '>'].any (fun c => s.data.contains c))
then .literal else .plain

/-- What a per-file iteration of the main loop prints: the processed status
line with its change lines, the failure line, or the skip warning. -/
inductive Report where
| processed : String → List DRec → Report
| failed : String → String → Report
| skipped : String → Report

/-- One configured input file, with the external collaborators' outcomes
made explicit: `parsed` is the result of reading, `fix_block_scalars` and
`yaml.safe_load` (an exception message on failure), and `dumpErr` is the
outcome of `yaml.safe_dump` on the rewritten tree. -/
structure YFile where
  name : String
  present : Bool
  parsed : Except String Tree
  dumpErr : Option String

/-- Embeds `process_yaml_file(filepath, prefix, keys_to_prefix, lookup)` of
aap_prefix4.py.  Returns the lookup as mutated so far and the per-file
outcome: the shared dict is mutated in place by `recursive_prefix_lookup`
before dumping, so a dump failure still keeps this file's lookup entries. -/
def process_yaml_file (f : YFile) (pfx : String) (keys : List String) (lk : Lookup) :
    Lookup × Except String (List DRec) :=
match f.parsed with
| .error e => (lk, .error e)
| .ok original =>
  let r := recursive_prefix_lookup original pfx keys lk
  let diffs := diff_dict original r.1 ""
  match f.dumpErr with
  | some e => (r.2, .error e)
  | none => (r.2, .ok diffs)

/-- Embeds the `__main__` loop of aap_prefix4.py (the resilient variant):
missing files are skipped, a failing `process_yaml_file` is caught and
reported as a failure naming the file and the cause, and the run continues
with the remaining files, keeping whatever is in the shared lookup. -/
def runFiles (files : List (YFile × List String)) (pfx : String) (lk : Lookup) :
    List Report × Lookup :=
match files with
| [] => ([], lk)
| (f, keys) :: rest =>
  if f.present then
    let r := process_yaml_file f pfx keys lk
    let rep := match r.2 with
      | .ok diffs => Report.processed f.name diffs
      | .error e => Report.failed f.name e
    let rr := runFiles rest pfx r.1
    (rep :: rr.1, rr.2)
  else
    let rr := runFiles rest pfx lk
    (Report.skipped f.name :: rr.1, rr.2)

mutual

/-- Specification predicate for structure preservation: `t'` has exactly the
shape of `t` (same keys in the same order per mapping, same sequence
lengths) and differs from `t` at most at string leaf values sitting directly
under keys in `keys`. -/
def shapeOnly (keys : List String) (t t' : Tree) : Bool :=
match t, t' with
| .map es, .map es' => shapeEntries keys es es'
| .seq l, .seq l' => shapeItems keys l l'
| a, b => Tree.beq a b

/-- Entry lists: keys agree pointwise; an eligible string value may be
replaced by any string, every other value recursively satisfies the
structure-preservation predicate. -/
def shapeEntries (keys : List String) (es es' : List (String × Tree)) : Bool :=
match es, es' with
| [], [] => true
| (k, v) :: r, (k', v') :: r' =>
  (k == k') &&
  (if keys.contains k && v.isStr then v'.isStr else shapeOnly keys v v') &&
  shapeEntries keys r r'
| _, _ => false

/-- Item lists: same length, pointwise structure preservation. -/
def shapeItems (keys : List String) (l l' : List Tree) : Bool :=
match l, l' with
| [], [] => true
| v :: r, v' :: r' => shapeOnly keys v v' && shapeItems keys r r'
| _, _ => false

end

/-- The thread of lookup states a rewrite call can produce: each key is
either untouched or holds the canonical entry `a ↦ pfx ++ a` for some `a`
that does not already start with the prefix. -/
def LkEvolves (pfx : String) (lk lk' : Lookup) : Prop :=
∀ a : String, lookGet lk' a = lookGet lk a ∨
  (lookGet lk' a = some (pfx ++ a) ∧ startswith a pfx = false)

/-- Specification predicate: every entry of the lookup dict is canonical for
the run's prefix — it maps an old value `a` that does not start with the
prefix to exactly `pfx ++ a`, which does start with the prefix. -/
def TableInv (pfx : String) (lk : Lookup) : Prop :=
∀ a b : String, lookGet lk a = some b →
  b = pfx ++ a ∧ startswith b pfx = true ∧ startswith a pfx = false

theorem lkEvolves_refl (pfx : String) (lk : Lookup) : LkEvolves pfx lk lk :=
  fun _ => .inl rfl

theorem lkEvolves_trans {pfx : String} {lk1 lk2 lk3 : Lookup}
    (h1 : LkEvolves pfx lk1 lk2) (h2 : LkEvolves pfx lk2 lk3) :
    LkEvolves pfx lk1 lk3 := by
  intro a
  rcases h2 a with h | h
  · rw [h]; exact h1 a
  · exact .inr h

theorem lookGet_dictSet : ∀ (lk : Lookup) (k v a : String),
    lookGet (dictSet lk k v) a = if a = k then some v else lookGet lk a := by
  intro lk k v
  induction lk with
  | nil =>
    intro a
    by_cases h : a = k
    · simp [dictSet, lookGet, h]
    · simp [dictSet, lookGet, h, Ne.symm h]
  | cons hd tl ih =>
    intro a
    obtain ⟨k', v'⟩ := hd
    by_cases hk : k' = k
    · subst hk
      by_cases ha : a = k'
      · subst ha; simp [dictSet, lookGet]
      · simp [dictSet, lookGet, ha, Ne.symm ha]
    · by_cases ha : k' = a
      · subst ha
        simp [dictSet, lookGet, hk, Ne.symm hk]
      · simp [dictSet, lookGet, hk, ha, ih]

theorem lkEvolves_dictSet {pfx s : String} (lk : Lookup)
    (h : startswith s pfx = false) :
    LkEvolves pfx lk (dictSet lk s (pfx ++ s)) := by
  intro a
  rw [lookGet_dictSet]
  by_cases ha : a = s
  · subst ha; exact .inr ⟨by simp, h⟩
  · simp [ha]

theorem lkEvolves_stable {pfx a : String} {lk lk' : Lookup}
    (h : LkEvolves pfx lk lk') (hg : lookGet lk a = some (pfx ++ a)) :
    lookGet lk' a = some (pfx ++ a) := by
  rcases h a with hh | ⟨hh, _⟩
  · rw [hh]; exact hg
  · exact hh

/-- A rewrite call only evolves the lookup dict by canonical insertions. -/
theorem rw_evolves (data : Tree) (pfx : String) (keys : List String) (lk : Lookup) :
    LkEvolves pfx lk (recursive_prefix_lookup data pfx keys lk).2 := by
  refine recursive_prefix_lookup.induct
    (fun t pfx keys lk => LkEvolves pfx lk (recursive_prefix_lookup t pfx keys lk).2)
    (fun items pfx keys lk => LkEvolves pfx lk (rwItems items pfx keys lk).2)
    (fun es pfx keys lk => LkEvolves pfx lk (rwEntries es pfx keys lk).2)
    ?_ ?_ ?_ ?_ ?_ ?_ ?_ ?_ ?_ data pfx keys lk
  · intro pfx keys lk es ih
    simpa [recursive_prefix_lookup] using ih
  · intro pfx keys lk items ih
    simpa [recursive_prefix_lookup] using ih
  · intro pfx keys lk t hm hs
    cases t with
    | map es => exact absurd rfl (hm es)
    | seq items => exact absurd rfl (hs items)
    | str s => simpa [recursive_prefix_lookup] using lkEvolves_refl pfx lk
    | int n => simpa [recursive_prefix_lookup] using lkEvolves_refl pfx lk
    | bool b => simpa [recursive_prefix_lookup] using lkEvolves_refl pfx lk
    | null => simpa [recursive_prefix_lookup] using lkEvolves_refl pfx lk
  · intro pfx keys lk
    simpa [rwEntries] using lkEvolves_refl pfx lk
  · intro pfx keys lk key value rest hcond hsw ih
    simp only [rwEntries]
    rw [if_pos hcond, if_pos hsw]
    exact ih
  · intro pfx keys lk key value rest hcond hsw
    intro nv ih
    have ih' : LkEvolves pfx (dictSet lk value.strVal (pfx ++ value.strVal))
        (rwEntries rest pfx keys (dictSet lk value.strVal (pfx ++ value.strVal))).2 := ih
    simp only [rwEntries]
    rw [if_pos hcond, if_neg hsw]
    exact lkEvolves_trans (lkEvolves_dictSet lk (by simpa using hsw)) ih'
  · intro pfx keys lk key value rest hcond r1 ih1 ih2
    have ih2' : LkEvolves pfx (recursive_prefix_lookup value pfx keys lk).2
        (rwEntries rest pfx keys (recursive_prefix_lookup value pfx keys lk).2).2 := ih2
    simp only [rwEntries]
    rw [if_neg hcond]
    exact lkEvolves_trans ih1 ih2'
  · intro pfx keys lk
    simpa [rwItems] using lkEvolves_refl pfx lk
  · intro pfx keys lk item rest r1 ih1 ih2
    have ih2' : LkEvolves pfx (recursive_prefix_lookup item pfx keys lk).2
        (rwItems rest pfx keys (recursive_prefix_lookup item pfx keys lk).2).2 := ih2
    simp only [rwItems]
    exact lkEvolves_trans ih1 ih2'

/-- The dict loop inherits the canonical-evolution property. -/
theorem rwEntries_evolves (es : List (String × Tree)) (pfx : String)
    (keys : List String) (lk : Lookup) :
    LkEvolves pfx lk (rwEntries es pfx keys lk).2 := by
  simpa [recursive_prefix_lookup] using rw_evolves (.map es) pfx keys lk

/-- The list loop inherits the canonical-evolution property. -/
theorem rwItems_evolves (items : List Tree) (pfx : String)
    (keys : List String) (lk : Lookup) :
    LkEvolves pfx lk (rwItems items pfx keys lk).2 := by
  simpa [recursive_prefix_lookup] using rw_evolves (.seq items) pfx keys lk

theorem startswith_empty (s : String) : startswith s "" = true := by
  unfold startswith
  rw [show "".data = [] from rfl]
  exact List.isPrefixOf_nil_left

theorem startswith_append (p s : String) : startswith (p ++ s) p = true := by
  simp [startswith, List.isPrefixOf_iff_prefix]

/-- Unfolding: a mapping node rewrites via the dict loop. -/
theorem rw_map_eq (es : List (String × Tree)) (pfx : String) (keys : List String)
    (lk : Lookup) :
    recursive_prefix_lookup (.map es) pfx keys lk
      = (.map (rwEntries es pfx keys lk).1, (rwEntries es pfx keys lk).2) := by
  simp [recursive_prefix_lookup]

/-- Unfolding: a sequence node rewrites via the list loop. -/
theorem rw_seq_eq (items : List Tree) (pfx : String) (keys : List String)
    (lk : Lookup) :
    recursive_prefix_lookup (.seq items) pfx keys lk
      = (.seq (rwItems items pfx keys lk).1, (rwItems items pfx keys lk).2) := by
  simp [recursive_prefix_lookup]

theorem rwEntries_nil (pfx : String) (keys : List String) (lk : Lookup) :
    rwEntries [] pfx keys lk = ([], lk) := by
  simp [rwEntries]

/-- Unfolding: an eligible string entry already carrying the prefix is kept. -/
theorem rwEntries_keep {key : String} {value : Tree} {pfx : String}
    {keys : List String} (rest : List (String × Tree)) (lk : Lookup)
    (hcond : (keys.contains key && value.isStr) = true)
    (hsw : startswith value.strVal pfx = true) :
    rwEntries ((key, value) :: rest) pfx keys lk =
      ((key, value) :: (rwEntries rest pfx keys lk).1, (rwEntries rest pfx keys lk).2) := by
  simp only [rwEntries]
  rw [if_pos hcond, if_pos hsw]

/-- Unfolding: an eligible string entry not carrying the prefix is prefixed
and recorded in the lookup dict. -/
theorem rwEntries_insert {key : String} {value : Tree} {pfx : String}
    {keys : List String} (rest : List (String × Tree)) (lk : Lookup)
    (hcond : (keys.contains key && value.isStr) = true)
    (hsw : ¬ startswith value.strVal pfx = true) :
    rwEntries ((key, value) :: rest) pfx keys lk =
      ((key, .str (pfx ++ value.strVal)) ::
        (rwEntries rest pfx keys (dictSet lk value.strVal (pfx ++ value.strVal))).1,
       (rwEntries rest pfx keys (dictSet lk value.strVal (pfx ++ value.strVal))).2) := by
  simp only [rwEntries]
  rw [if_pos hcond, if_neg hsw]

/-- Unfolding: any other entry recurses into its value. -/
theorem rwEntries_skip {key : String} {value : Tree} {pfx : String}
    {keys : List String} (rest : List (String × Tree)) (lk : Lookup)
    (hcond : ¬ (keys.contains key && value.isStr) = true) :
    rwEntries ((key, value) :: rest) pfx keys lk =
      ((key, (recursive_prefix_lookup value pfx keys lk).1) ::
        (rwEntries rest pfx keys (recursive_prefix_lookup value pfx keys lk).2).1,
       (rwEntries rest pfx keys (recursive_prefix_lookup value pfx keys lk).2).2) := by
  simp only [rwEntries]
  rw [if_neg hcond]

theorem rwItems_nil (pfx : String) (keys : List String) (lk : Lookup) :
    rwItems [] pfx keys lk = ([], lk) := by
  simp [rwItems]

theorem rwItems_cons (item : Tree) (rest : List Tree) (pfx : String)
    (keys : List String) (lk : Lookup) :
    rwItems (item :: rest) pfx keys lk =
      ((recursive_prefix_lookup item pfx keys lk).1 ::
        (rwItems rest pfx keys (recursive_prefix_lookup item pfx keys lk).2).1,
       (rwItems rest pfx keys (recursive_prefix_lookup item pfx keys lk).2).2) := by
  simp only [rwItems]

/-- The rewriter never changes the top-level kind of a node; in particular a
non-string value stays non-string. -/
theorem rw_isStr (v : Tree) (pfx : String) (keys : List String) (lk : Lookup) :
    (recursive_prefix_lookup v pfx keys lk).1.isStr = v.isStr := by
  cases v <;> simp [recursive_prefix_lookup, Tree.isStr]

/-- The rewriter leaves string nodes reached by the generic dispatch alone. -/
theorem rw_scalar (v : Tree) (pfx : String) (keys : List String) (lk : Lookup)
    (hm : ∀ es, v ≠ .map es) (hs : ∀ items, v ≠ .seq items) :
    recursive_prefix_lookup v pfx keys lk = (v, lk) := by
  cases v with
  | map es => exact absurd rfl (hm es)
  | seq items => exact absurd rfl (hs items)
  | str s => simp [recursive_prefix_lookup]
  | int n => simp [recursive_prefix_lookup]
  | bool b => simp [recursive_prefix_lookup]
  | null => simp [recursive_prefix_lookup]

/-- With an empty prefix every string already starts with the prefix, so the
rewriter is the identity and never touches the lookup. -/
theorem rw_emptyPrefix (data : Tree) (keys : List String) (lk : Lookup) :
    recursive_prefix_lookup data "" keys lk = (data, lk) := by
  refine recursive_prefix_lookup.induct
    (fun t pfx keys lk => pfx = "" → recursive_prefix_lookup t pfx keys lk = (t, lk))
    (fun items pfx keys lk => pfx = "" → rwItems items pfx keys lk = (items, lk))
    (fun es pfx keys lk => pfx = "" → rwEntries es pfx keys lk = (es, lk))
    ?_ ?_ ?_ ?_ ?_ ?_ ?_ ?_ ?_ data "" keys lk rfl
  · intro pfx keys lk es ih h
    rw [rw_map_eq, ih h]
  · intro pfx keys lk items ih h
    rw [rw_seq_eq, ih h]
  · intro pfx keys lk t hm hs h
    exact rw_scalar t pfx keys lk (fun es he => hm es he) (fun items he => hs items he)
  · intro pfx keys lk h
    exact rwEntries_nil pfx keys lk
  · intro pfx keys lk key value rest hcond hsw ih h
    rw [rwEntries_keep rest lk hcond hsw, ih h]
  · intro pfx keys lk key value rest hcond hsw nv ih h
    subst h
    exact absurd (startswith_empty value.strVal) hsw
  · intro pfx keys lk key value rest hcond r1 ih1 ih2 h
    have h1 : recursive_prefix_lookup value pfx keys lk = (value, lk) := ih1 h
    have h2 : rwEntries rest pfx keys (recursive_prefix_lookup value pfx keys lk).2
        = (rest, (recursive_prefix_lookup value pfx keys lk).2) := ih2 h
    rw [rwEntries_skip rest lk hcond, h2, h1]
  · intro pfx keys lk h
    exact rwItems_nil pfx keys lk
  · intro pfx keys lk item rest r1 ih1 ih2 h
    have h1 : recursive_prefix_lookup item pfx keys lk = (item, lk) := ih1 h
    have h2 : rwItems rest pfx keys (recursive_prefix_lookup item pfx keys lk).2
        = (rest, (recursive_prefix_lookup item pfx keys lk).2) := ih2 h
    rw [rwItems_cons, h2, h1]

/-- The rewriter is idempotent on trees: a second pass (with any lookup
state) returns the first pass's tree unchanged. -/
theorem rw_idem (data : Tree) (pfx : String) (keys : List String) (lk lk2 : Lookup) :
    (recursive_prefix_lookup (recursive_prefix_lookup data pfx keys lk).1 pfx keys lk2).1
      = (recursive_prefix_lookup data pfx keys lk).1 := by
  refine recursive_prefix_lookup.induct
    (fun t pfx keys lk => ∀ lk2,
      (recursive_prefix_lookup (recursive_prefix_lookup t pfx keys lk).1 pfx keys lk2).1
        = (recursive_prefix_lookup t pfx keys lk).1)
    (fun items pfx keys lk => ∀ lk2,
      (rwItems (rwItems items pfx keys lk).1 pfx keys lk2).1
        = (rwItems items pfx keys lk).1)
    (fun es pfx keys lk => ∀ lk2,
      (rwEntries (rwEntries es pfx keys lk).1 pfx keys lk2).1
        = (rwEntries es pfx keys lk).1)
    ?_ ?_ ?_ ?_ ?_ ?_ ?_ ?_ ?_ data pfx keys lk lk2
  · intro pfx keys lk es ih lk2
    simp only [rw_map_eq]
    exact congrArg Tree.map (ih lk2)
  · intro pfx keys lk items ih lk2
    simp only [rw_seq_eq]
    exact congrArg Tree.seq (ih lk2)
  · intro pfx keys lk t hm hs lk2
    have h1 := rw_scalar t pfx keys lk (fun es he => hm es he) (fun items he => hs items he)
    have h2 := rw_scalar t pfx keys lk2 (fun es he => hm es he) (fun items he => hs items he)
    rw [h1]
    simp [h2]
  · intro pfx keys lk lk2
    simp [rwEntries_nil]
  · intro pfx keys lk key value rest hcond hsw ih lk2
    simp only [rwEntries_keep rest lk hcond hsw,
      rwEntries_keep ((rwEntries rest pfx keys lk).1) lk2 hcond hsw]
    exact congrArg (List.cons (key, value)) (ih lk2)
  · intro pfx keys lk key value rest hcond hsw nv ih lk2
    have hc1 : keys.contains key = true := by
      cases hcc : keys.contains key with
      | true => rfl
      | false => rw [hcc] at hcond; simp at hcond
    have hcond2 : (keys.contains key && (Tree.str (pfx ++ value.strVal)).isStr) = true := by
      rw [hc1]; rfl
    have hsw2 : startswith (Tree.str (pfx ++ value.strVal)).strVal pfx = true := by
      simpa [Tree.strVal] using startswith_append pfx value.strVal
    have ih' : ∀ lk',
        (rwEntries (rwEntries rest pfx keys (dictSet lk value.strVal (pfx ++ value.strVal))).1
          pfx keys lk').1
        = (rwEntries rest pfx keys (dictSet lk value.strVal (pfx ++ value.strVal))).1 := ih
    simp only [rwEntries_insert rest lk hcond hsw]
    rw [rwEntries_keep
      ((rwEntries rest pfx keys (dictSet lk value.strVal (pfx ++ value.strVal))).1)
      lk2 hcond2 hsw2]
    exact congrArg (List.cons (key, Tree.str (pfx ++ value.strVal))) (ih' lk2)
  · intro pfx keys lk key value rest hcond r1 ih1 ih2 lk2
    have hcond2 :
        ¬ (keys.contains key && (recursive_prefix_lookup value pfx keys lk).1.isStr) = true := by
      rw [rw_isStr]; exact hcond
    have ih2' : ∀ lk',
        (rwEntries (rwEntries rest pfx keys (recursive_prefix_lookup value pfx keys lk).2).1
          pfx keys lk').1
        = (rwEntries rest pfx keys (recursive_prefix_lookup value pfx keys lk).2).1 := ih2
    simp only [rwEntries_skip rest lk hcond]
    rw [rwEntries_skip
      ((rwEntries rest pfx keys (recursive_prefix_lookup value pfx keys lk).2).1)
      lk2 hcond2]
    rw [ih2' ((recursive_prefix_lookup (recursive_prefix_lookup value pfx keys lk).1 pfx keys lk2).2),
        ih1 lk2]
  · intro pfx keys lk lk2
    simp [rwItems_nil]
  · intro pfx keys lk item rest r1 ih1 ih2 lk2
    have ih2' : ∀ lk',
        (rwItems (rwItems rest pfx keys (recursive_prefix_lookup item pfx keys lk).2).1
          pfx keys lk').1
        = (rwItems rest pfx keys (recursive_prefix_lookup item pfx keys lk).2).1 := ih2
    simp only [rwItems_cons]
    rw [ih2' ((recursive_prefix_lookup (recursive_prefix_lookup item pfx keys lk).1 pfx keys lk2).2),
        ih1 lk2]

/-- The rewritten tree always satisfies the structure-preservation
predicate against its input. -/
theorem rw_shape (data : Tree) (pfx : String) (keys : List String) (lk : Lookup) :
    shapeOnly keys data (recursive_prefix_lookup data pfx keys lk).1 = true := by
  refine recursive_prefix_lookup.induct
    (fun t pfx keys lk => shapeOnly keys t (recursive_prefix_lookup t pfx keys lk).1 = true)
    (fun items pfx keys lk => shapeItems keys items (rwItems items pfx keys lk).1 = true)
    (fun es pfx keys lk => shapeEntries keys es (rwEntries es pfx keys lk).1 = true)
    ?_ ?_ ?_ ?_ ?_ ?_ ?_ ?_ ?_ data pfx keys lk
  · intro pfx keys lk es ih
    simp only [rw_map_eq]
    simpa [shapeOnly] using ih
  · intro pfx keys lk items ih
    simp only [rw_seq_eq]
    simpa [shapeOnly] using ih
  · intro pfx keys lk t hm hs
    cases t with
    | map es => exact absurd rfl (hm es)
    | seq items => exact absurd rfl (hs items)
    | str s => simp [recursive_prefix_lookup, shapeOnly, Tree.beq]
    | int n => simp [recursive_prefix_lookup, shapeOnly, Tree.beq]
    | bool b => simp [recursive_prefix_lookup, shapeOnly, Tree.beq]
    | null => simp [recursive_prefix_lookup, shapeOnly, Tree.beq]
  · intro pfx keys lk
    simp [rwEntries_nil, shapeEntries]
  · intro pfx keys lk key value rest hcond hsw ih
    have hstr : value.isStr = true := by
      cases hvv : value.isStr with
      | true => rfl
      | false => rw [hvv, Bool.and_false] at hcond; exact absurd hcond (by simp)
    simp only [rwEntries_keep rest lk hcond hsw, shapeEntries]
    rw [if_pos hcond]
    simp [hstr, ih]
  · intro pfx keys lk key value rest hcond hsw nv ih
    have ih' : shapeEntries keys rest
        (rwEntries rest pfx keys (dictSet lk value.strVal (pfx ++ value.strVal))).1 = true := ih
    simp only [rwEntries_insert rest lk hcond hsw, shapeEntries]
    rw [if_pos hcond]
    simp [Tree.isStr, ih']
  · intro pfx keys lk key value rest hcond r1 ih1 ih2
    have ih2' : shapeEntries keys rest
        (rwEntries rest pfx keys (recursive_prefix_lookup value pfx keys lk).2).1 = true := ih2
    simp only [rwEntries_skip rest lk hcond, shapeEntries]
    rw [if_neg hcond]
    simp [ih1, ih2']
  · intro pfx keys lk
    simp [rwItems_nil, shapeItems]
  · intro pfx keys lk item rest r1 ih1 ih2
    have ih2' : shapeItems keys rest
        (rwItems rest pfx keys (recursive_prefix_lookup item pfx keys lk).2).1 = true := ih2
    simp only [rwItems_cons, shapeItems]
    simp [ih1, ih2']

theorem isStr_eq {v : Tree} (h : v.isStr = true) : v = .str v.strVal := by
  cases v <;> simp [Tree.isStr, Tree.strVal] at h ⊢

/-- The dict loop preserves the key view of a mapping node. -/
theorem rwEntries_keysOf (es : List (String × Tree)) (pfx : String) (keys : List String) :
    ∀ lk, (rwEntries es pfx keys lk).1.map Prod.fst = es.map Prod.fst := by
  induction es with
  | nil => intro lk; simp [rwEntries_nil]
  | cons hd rest ih =>
    intro lk
    obtain ⟨key, value⟩ := hd
    by_cases hcond : (keys.contains key && value.isStr) = true
    · by_cases hsw : startswith value.strVal pfx = true
      · simp [rwEntries_keep rest lk hcond hsw, ih]
      · simp [rwEntries_insert rest lk hcond hsw, ih]
    · simp [rwEntries_skip rest lk hcond, ih]

/-- The list loop preserves sequence length. -/
theorem rwItems_length (items : List Tree) (pfx : String) (keys : List String) :
    ∀ lk, (rwItems items pfx keys lk).1.length = items.length := by
  induction items with
  | nil => intro lk; simp [rwItems_nil]
  | cons item rest ih => intro lk; simp [rwItems_cons, ih]

/-- Unfolding: both-mapping diff iterates the key union. -/
theorem diff_map_eq (es1 es2 : List (String × Tree)) (path : String) :
    diff_dict (.map es1) (.map es2) path
      = diffKeys (unionKeys (keysOf es1) (keysOf es2)) es1 es2 path := by
  simp [diff_dict]

/-- Unfolding: both-sequence diff is the pairwise part plus the two
one-sided tails. -/
theorem diff_seq_eq (l1 l2 : List Tree) (path : String) :
    diff_dict (.seq l1) (.seq l2) path
      = diffPairs l1 l2 path 0
        ++ (List.enumFrom l1.length (l2.drop l1.length)).map
            (fun iv => (path ++ "[" ++ toString iv.1 ++ "]", none, some iv.2))
        ++ (List.enumFrom l2.length (l1.drop l2.length)).map
            (fun iv => (path ++ "[" ++ toString iv.1 ++ "]", some iv.2, none)) := by
  simp [diff_dict]

/-- Unfolding: two string scalars diff to nothing or one mismatch record. -/
theorem diff_str_eq (a b : String) (path : String) :
    diff_dict (.str a) (.str b) path
      = if a = b then [] else [(path, some (.str a), some (.str b))] := by
  by_cases h : a = b <;> simp [diff_dict, Tree.beq, h]

/-- Every record produced by the pairwise sequence loop comes from the diff
of some aligned pair of elements. -/
theorem diffPairs_mem (l1 : List Tree) :
    ∀ (l2 : List Tree) (path : String) (i : Nat) (r : DRec),
      r ∈ diffPairs l1 l2 path i →
      ∃ v1 v2 p, (v1, v2) ∈ l1.zip l2 ∧ r ∈ diff_dict v1 v2 p := by
  induction l1 with
  | nil =>
    intro l2 path i r h
    cases l2 <;> simp [diffPairs] at h
  | cons v1 r1 ih =>
    intro l2 path i r h
    cases l2 with
    | nil => simp [diffPairs] at h
    | cons v2 r2 =>
      rw [show diffPairs (v1 :: r1) (v2 :: r2) path i
          = diff_dict v1 v2 (path ++ "[" ++ toString i ++ "]") ++ diffPairs r1 r2 path (i + 1)
          from by simp [diffPairs]] at h
      rcases List.mem_append.mp h with h | h
      · exact ⟨v1, v2, path ++ "[" ++ toString i ++ "]", by simp, h⟩
      · obtain ⟨w1, w2, p, hm, hr⟩ := ih r2 path (i + 1) r h
        exact ⟨w1, w2, p, by simp [List.zip_cons_cons, hm], hr⟩

/-- Every both-`some` record of the key loop comes from the diff of two
values present under the same key in both mappings. -/
theorem diffKeys_mem (ks : List String) (es1 es2 : List (String × Tree)) (path : String) :
    ∀ (p : String) (x y : Tree),
      (p, some x, some y) ∈ diffKeys ks es1 es2 path →
      ∃ k p' v1 v2, dictGet es1 k = some v1 ∧ dictGet es2 k = some v2 ∧
        (p, some x, some y) ∈ diff_dict v1 v2 p' := by
  induction ks with
  | nil => intro p x y h; simp [diffKeys] at h
  | cons k rest ih =>
    intro p x y h
    cases hd1 : dictGet es1 k <;> cases hd2 : dictGet es2 k <;>
      rw [diffKeys] at h <;> rw [hd1, hd2] at h <;> simp only [List.mem_append] at h
    · rcases h with h | h
      · simp at h
      · exact ih p x y h
    · rcases h with h | h
      · simp at h
      · exact ih p x y h
    · rcases h with h | h
      · simp at h
      · exact ih p x y h
    · rcases h with h | h
      · exact ⟨k, if path = "" then k else path ++ "." ++ k, _, _, hd1, hd2, h⟩
      · exact ih p x y h

/-- Lookup fidelity: a record of the diff between a tree and its rewrite
that replaces one string by another shows exactly the canonical prefixing,
and the final lookup dict maps the old string to the new one. -/
theorem rw_diff_lookup (data : Tree) (pfx : String) (keys : List String) (lk : Lookup) :
    ∀ (path p a b : String),
      (p, some (.str a), some (.str b)) ∈
        diff_dict data (recursive_prefix_lookup data pfx keys lk).1 path →
      b = pfx ++ a ∧
        lookGet (recursive_prefix_lookup data pfx keys lk).2 a = some (pfx ++ a) := by
  refine recursive_prefix_lookup.induct
    (fun t pfx keys lk => ∀ (path p a b : String),
      (p, some (.str a), some (.str b)) ∈
        diff_dict t (recursive_prefix_lookup t pfx keys lk).1 path →
      b = pfx ++ a ∧ lookGet (recursive_prefix_lookup t pfx keys lk).2 a = some (pfx ++ a))
    (fun items pfx keys lk => ∀ (v v' : Tree),
      (v, v') ∈ items.zip (rwItems items pfx keys lk).1 →
      ∀ (p' p a b : String), (p, some (.str a), some (.str b)) ∈ diff_dict v v' p' →
      b = pfx ++ a ∧ lookGet (rwItems items pfx keys lk).2 a = some (pfx ++ a))
    (fun es pfx keys lk => ∀ (k : String) (v1 v2 : Tree),
      dictGet es k = some v1 → dictGet (rwEntries es pfx keys lk).1 k = some v2 →
      ∀ (p' p a b : String), (p, some (.str a), some (.str b)) ∈ diff_dict v1 v2 p' →
      b = pfx ++ a ∧ lookGet (rwEntries es pfx keys lk).2 a = some (pfx ++ a))
    ?_ ?_ ?_ ?_ ?_ ?_ ?_ ?_ ?_ data pfx keys lk
  · intro pfx keys lk es ih path p a b h
    simp only [rw_map_eq] at h ⊢
    rw [diff_map_eq] at h
    obtain ⟨k, p', v1, v2, h1, h2, hmem⟩ := diffKeys_mem _ _ _ _ _ _ _ h
    exact ih k v1 v2 h1 h2 p' p a b hmem
  · intro pfx keys lk items ih path p a b h
    simp only [rw_seq_eq] at h ⊢
    rw [diff_seq_eq] at h
    have hlen : (rwItems items pfx keys lk).1.length = items.length :=
      rwItems_length items pfx keys lk
    rw [show (rwItems items pfx keys lk).1.drop items.length = [] from by
          rw [← hlen]; exact List.drop_length _,
        show items.drop (rwItems items pfx keys lk).1.length = [] from by
          rw [hlen]; exact List.drop_length _] at h
    simp only [List.enumFrom, List.map_nil, List.append_nil] at h
    obtain ⟨v1, v2, p', hz, hmem⟩ := diffPairs_mem _ _ _ _ _ h
    exact ih v1 v2 hz p' p a b hmem
  · intro pfx keys lk t hm hs path p a b h
    rw [rw_scalar t pfx keys lk (fun es he => hm es he) (fun items he => hs items he)] at h ⊢
    cases t with
    | map es => exact absurd rfl (hm es)
    | seq items => exact absurd rfl (hs items)
    | str s => simp [diff_dict, Tree.beq] at h
    | int n => simp [diff_dict, Tree.beq] at h
    | bool c => simp [diff_dict, Tree.beq] at h
    | null => simp [diff_dict, Tree.beq] at h
  · intro pfx keys lk k v1 v2 h1
    simp [dictGet] at h1
  · intro pfx keys lk key value rest hcond hsw ih k v1 v2 h1 h2 p' p a b hmem
    have hstr : value.isStr = true := by
      cases hvv : value.isStr with
      | true => rfl
      | false => rw [hvv, Bool.and_false] at hcond; exact absurd hcond (by simp)
    rw [rwEntries_keep rest lk hcond hsw] at h2 ⊢
    by_cases hk : key = k
    · subst hk
      simp only [dictGet, if_pos rfl] at h1 h2
      obtain rfl : value = v1 := by simpa using h1
      obtain rfl : value = v2 := by simpa using h2
      rw [isStr_eq hstr] at hmem
      rw [diff_str_eq] at hmem
      simp at hmem
    · simp only [dictGet, if_neg hk] at h1 h2
      exact ih k v1 v2 h1 h2 p' p a b hmem
  · intro pfx keys lk key value rest hcond hsw nv ih k v1 v2 h1 h2 p' p a b hmem
    have hstr : value.isStr = true := by
      cases hvv : value.isStr with
      | true => rfl
      | false => rw [hvv, Bool.and_false] at hcond; exact absurd hcond (by simp)
    obtain ⟨s, rfl⟩ : ∃ s, value = .str s := ⟨value.strVal, isStr_eq hstr⟩
    have ih' : ∀ (k : String) (v1 v2 : Tree),
        dictGet rest k = some v1 →
        dictGet (rwEntries rest pfx keys (dictSet lk s (pfx ++ s))).1 k = some v2 →
        ∀ (p' p a b : String), (p, some (.str a), some (.str b)) ∈ diff_dict v1 v2 p' →
        b = pfx ++ a ∧
          lookGet (rwEntries rest pfx keys (dictSet lk s (pfx ++ s))).2 a
            = some (pfx ++ a) := ih
    rw [rwEntries_insert rest lk hcond hsw] at h2 ⊢
    simp only [Tree.strVal] at h2 ⊢
    by_cases hk : key = k
    · subst hk
      simp only [dictGet, if_pos rfl] at h1 h2
      obtain rfl : Tree.str s = v1 := by simpa using h1
      obtain rfl : Tree.str (pfx ++ s) = v2 := by simpa using h2
      rw [diff_str_eq] at hmem
      by_cases he : s = pfx ++ s
      · rw [if_pos he] at hmem
        simp at hmem
      · rw [if_neg he] at hmem
        simp only [List.mem_singleton, Prod.mk.injEq, Option.some.injEq, Tree.str.injEq] at hmem
        obtain ⟨-, ha, hb⟩ := hmem
        subst ha
        subst hb
        refine ⟨rfl, ?_⟩
        refine lkEvolves_stable (rwEntries_evolves rest pfx keys _) ?_
        rw [lookGet_dictSet]
        simp
    · simp only [dictGet, if_neg hk] at h1 h2
      exact ih' k v1 v2 h1 h2 p' p a b hmem
  · intro pfx keys lk key value rest hcond r1 ih1 ih2 k v1 v2 h1 h2 p' p a b hmem
    have ih2' : ∀ (k : String) (v1 v2 : Tree),
        dictGet rest k = some v1 →
        dictGet (rwEntries rest pfx keys
          (recursive_prefix_lookup value pfx keys lk).2).1 k = some v2 →
        ∀ (p' p a b : String), (p, some (.str a), some (.str b)) ∈ diff_dict v1 v2 p' →
        b = pfx ++ a ∧
          lookGet (rwEntries rest pfx keys
            (recursive_prefix_lookup value pfx keys lk).2).2 a = some (pfx ++ a) := ih2
    rw [rwEntries_skip rest lk hcond] at h2 ⊢
    by_cases hk : key = k
    · subst hk
      simp only [dictGet, if_pos rfl] at h1 h2
      obtain rfl : value = v1 := by simpa using h1
      obtain rfl : (recursive_prefix_lookup value pfx keys lk).1 = v2 := by simpa using h2
      obtain ⟨hb, hl⟩ := ih1 p' p a b hmem
      exact ⟨hb, lkEvolves_stable (rwEntries_evolves rest pfx keys _) hl⟩
    · simp only [dictGet, if_neg hk] at h1 h2
      exact ih2' k v1 v2 h1 h2 p' p a b hmem
  · intro pfx keys lk v v' hz
    simp [rwItems_nil] at hz
  · intro pfx keys lk item rest r1 ih1 ih2 v v' hz p' p a b hmem
    have ih2' : ∀ (v v' : Tree),
        (v, v') ∈ rest.zip (rwItems rest pfx keys
          (recursive_prefix_lookup item pfx keys lk).2).1 →
        ∀ (p' p a b : String), (p, some (.str a), some (.str b)) ∈ diff_dict v v' p' →
        b = pfx ++ a ∧
          lookGet (rwItems rest pfx keys
            (recursive_prefix_lookup item pfx keys lk).2).2 a = some (pfx ++ a) := ih2
    rw [rwItems_cons] at hz ⊢
    simp only [List.zip_cons_cons, List.mem_cons] at hz
    rcases hz with hz | hz
    · obtain ⟨rfl, rfl⟩ : v = item ∧ v' = (recursive_prefix_lookup item pfx keys lk).1 := by
        simpa using hz
      obtain ⟨hb, hl⟩ := ih1 p' p a b hmem
      exact ⟨hb, lkEvolves_stable (rwItems_evolves rest pfx keys _) hl⟩
    · exact ih2' v v' hz p' p a b hmem

/-- `diff(x, x)` is empty for every tree. -/
theorem diff_self (t : Tree) (path : String) : diff_dict t t path = [] := by
  refine diff_dict.induct
    (fun d1 d2 path => d1 = d2 → diff_dict d1 d2 path = [])
    (fun l1 l2 path i => l1 = l2 → diffPairs l1 l2 path i = [])
    (fun ks es1 es2 path => es1 = es2 → diffKeys ks es1 es2 path = [])
    ?_ ?_ ?_ ?_ ?_ ?_ ?_ ?_ t t path rfl
  · intro path es1 es2 ih heq
    obtain rfl : es1 = es2 := by simpa using heq
    rw [diff_map_eq]
    exact ih rfl
  · intro path l1 l2 ih heq
    obtain rfl : l1 = l2 := by simpa using heq
    rw [diff_seq_eq, ih rfl]
    simp [List.drop_length]
  · intro path t1 t2 hm hs hbeq heq
    subst heq
    cases t1 with
    | map es => exact (hm es es rfl rfl).elim
    | seq l => exact (hs l l rfl rfl).elim
    | str s => simp [diff_dict, Tree.beq]
    | int n => simp [diff_dict, Tree.beq]
    | bool c => simp [diff_dict, Tree.beq]
    | null => simp [diff_dict, Tree.beq]
  · intro path t1 t2 hm hs hbeq heq
    subst heq
    cases t1 with
    | map es => exact (hm es es rfl rfl).elim
    | seq l => exact (hs l l rfl rfl).elim
    | str s => simp [Tree.beq] at hbeq
    | int n => simp [Tree.beq] at hbeq
    | bool c => simp [Tree.beq] at hbeq
    | null => simp [Tree.beq] at hbeq
  · intro path i v1 r1 v2 r2 ih1 ih2 heq
    obtain ⟨rfl, rfl⟩ : v1 = v2 ∧ r1 = r2 := by simpa using heq
    rw [show diffPairs (v1 :: r1) (v1 :: r1) path i
        = diff_dict v1 v1 (path ++ "[" ++ toString i ++ "]") ++ diffPairs r1 r1 path (i + 1)
        from by simp [diffPairs]]
    rw [ih1 rfl, ih2 rfl]
    rfl
  · intro l1 l2 path i hne heq
    subst heq
    cases l1 with
    | nil => simp [diffPairs]
    | cons v r => exact (hne v r v r rfl rfl).elim
  · intro es1 es2 path heq
    simp [diffKeys]
  · intro es1 es2 path k rest ihhead ihtail heq
    subst heq
    have htail := ihtail rfl
    cases hd : dictGet es1 k with
    | none =>
      rw [diffKeys, hd, htail]
      simp
    | some v =>
      rw [diffKeys, hd, htail]
      have hh := ihhead v v hd hd rfl
      simpa using hh

/-- The one-sided tails of a sequence diff never both contribute: only the
side of the longer sequence produces records. -/
theorem diff_seq_split (l1 l2 : List Tree) (path : String) :
    diff_dict (.seq l1) (.seq l2) path
      = diffPairs l1 l2 path 0
        ++ (if l1.length ≤ l2.length
            then (List.enumFrom l1.length (l2.drop l1.length)).map
                (fun iv => (path ++ "[" ++ toString iv.1 ++ "]", none, some iv.2))
            else (List.enumFrom l2.length (l1.drop l2.length)).map
                (fun iv => (path ++ "[" ++ toString iv.1 ++ "]", some iv.2, none))) := by
  rw [diff_seq_eq]
  by_cases h : l1.length ≤ l2.length
  · rw [if_pos h]
    rw [show l1.drop l2.length = [] from List.drop_eq_nil_iff.mpr h]
    simp [List.enumFrom]
  · rw [if_neg h]
    rw [show l2.drop l1.length = [] from List.drop_eq_nil_iff.mpr (le_of_lt (lt_of_not_le h))]
    simp [List.enumFrom]

/-- The dict loop splits over list append, threading the lookup state. -/
theorem rwEntries_append (es1 es2 : List (String × Tree)) (pfx : String)
    (keys : List String) :
    ∀ lk, rwEntries (es1 ++ es2) pfx keys lk =
      ((rwEntries es1 pfx keys lk).1
        ++ (rwEntries es2 pfx keys (rwEntries es1 pfx keys lk).2).1,
       (rwEntries es2 pfx keys (rwEntries es1 pfx keys lk).2).2) := by
  induction es1 with
  | nil => intro lk; simp [rwEntries_nil]
  | cons hd rest ih =>
    intro lk
    obtain ⟨key, value⟩ := hd
    by_cases hcond : (keys.contains key && value.isStr) = true
    · by_cases hsw : startswith value.strVal pfx = true
      · rw [List.cons_append, rwEntries_keep (rest ++ es2) lk hcond hsw, ih lk,
            rwEntries_keep rest lk hcond hsw]
        simp
      · rw [List.cons_append, rwEntries_insert (rest ++ es2) lk hcond hsw,
            ih (dictSet lk value.strVal (pfx ++ value.strVal)),
            rwEntries_insert rest lk hcond hsw]
        simp
    · rw [List.cons_append, rwEntries_skip (rest ++ es2) lk hcond,
          ih (recursive_prefix_lookup value pfx keys lk).2,
          rwEntries_skip rest lk hcond]
      simp

/-- A rewrite call preserves the canonical-table invariant. -/
theorem rw_tableInv (data : Tree) (pfx : String) (keys : List String) (lk : Lookup)
    (h : TableInv pfx lk) :
    TableInv pfx (recursive_prefix_lookup data pfx keys lk).2 := by
  intro a b hb
  rcases rw_evolves data pfx keys lk a with he | ⟨he, hsw⟩
  · exact h a b (he ▸ hb)
  · rw [he] at hb
    obtain rfl : pfx ++ a = b := by simpa using hb
    exact ⟨rfl, startswith_append pfx a, hsw⟩

/-- C1: a mapping entry whose key is eligible and whose string value does not
start with the prefix is replaced by `prefix ++ value`, and the pair
`(old value ↦ prefix ++ old value)` is in the lookup afterwards, overwriting
any prior entry for the same old value; Scenario 1 (`{"name": "web",
"organization": "infra"}` with keys `{name, organization}` and prefix
`dev_`) rewrites to `{"name": "dev_web", "organization": "dev_infra"}` with
lookup `{"web": "dev_web", "infra": "dev_infra"}`. -/
theorem C1_eligible_prefixed (pfx key s : String) (keys : List String)
    (es1 es2 : List (String × Tree)) (lk : Lookup)
    (hk : keys.contains key = true) (hsw : startswith s pfx = false) :
    recursive_prefix_lookup (.map (es1 ++ (key, .str s) :: es2)) pfx keys lk
      = (.map ((rwEntries es1 pfx keys lk).1
          ++ (key, .str (pfx ++ s))
            :: (rwEntries es2 pfx keys
                (dictSet (rwEntries es1 pfx keys lk).2 s (pfx ++ s))).1),
         (rwEntries es2 pfx keys
            (dictSet (rwEntries es1 pfx keys lk).2 s (pfx ++ s))).2) ∧
    lookGet (recursive_prefix_lookup (.map (es1 ++ (key, .str s) :: es2)) pfx keys lk).2 s
      = some (pfx ++ s) ∧
    recursive_prefix_lookup (.map [("name", .str "web"), ("organization", .str "infra")])
      "dev_" ["name", "organization"] []
      = (.map [("name", .str "dev_web"), ("organization", .str "dev_infra")],
         [("web", "dev_web"), ("infra", "dev_infra")]) := by
  have hcond : (keys.contains key && (Tree.str s).isStr) = true := by
    rw [hk]; rfl
  have hsw' : ¬ startswith (Tree.str s).strVal pfx = true := by
    simp [Tree.strVal, hsw]
  have hmain : recursive_prefix_lookup (.map (es1 ++ (key, .str s) :: es2)) pfx keys lk
      = (.map ((rwEntries es1 pfx keys lk).1
          ++ (key, .str (pfx ++ s))
            :: (rwEntries es2 pfx keys
                (dictSet (rwEntries es1 pfx keys lk).2 s (pfx ++ s))).1),
         (rwEntries es2 pfx keys
            (dictSet (rwEntries es1 pfx keys lk).2 s (pfx ++ s))).2) := by
    rw [rw_map_eq, rwEntries_append es1 ((key, .str s) :: es2) pfx keys lk,
        rwEntries_insert es2 (rwEntries es1 pfx keys lk).2 hcond hsw']
    simp [Tree.strVal]
  refine ⟨hmain, ?_, ?_⟩
  · rw [hmain]
    refine lkEvolves_stable
      (rwEntries_evolves es2 pfx keys
        (dictSet (rwEntries es1 pfx keys lk).2 s (pfx ++ s))) ?_
    rw [lookGet_dictSet]
    simp
  · simp [recursive_prefix_lookup, rwEntries, startswith, Tree.isStr, Tree.strVal, dictSet]

/-- C1 witness: the general part applied at prefix `dev_`, key `name`,
value `web`, singleton mapping, empty lookup. -/
theorem C1_eligible_prefixed_witness :
    lookGet (recursive_prefix_lookup (.map ([] ++ ("name", Tree.str "web") :: []))
        "dev_" ["name"] []).2 "web"
      = some ("dev_" ++ "web") :=
  (C1_eligible_prefixed "dev_" "name" "web" ["name"] [] [] [] (by decide) (by decide)).2.1

/-- C2: the Tree Rewriter is idempotent — rewriting the rewritten tree again
with the same prefix and key set (and any lookup state) returns it
unchanged. -/
theorem C2_idempotent (data : Tree) (pfx : String) (keys : List String)
    (lk lk2 : Lookup) :
    (recursive_prefix_lookup (recursive_prefix_lookup data pfx keys lk).1 pfx keys lk2).1
      = (recursive_prefix_lookup data pfx keys lk).1 :=
  rw_idem data pfx keys lk lk2

/-- C3: the rewritten tree has identical shape to the input — same key set
and key order per mapping, same sequence lengths, and only string leaf
values directly under eligible keys may differ. -/
theorem C3_structure_preserved (data : Tree) (pfx : String) (keys : List String)
    (lk : Lookup) :
    shapeOnly keys data (recursive_prefix_lookup data pfx keys lk).1 = true :=
  rw_shape data pfx keys lk

/-- C4: an eligible key with a non-string value is recursed into, not
prefixed; Scenario 3 (`{"credentials": ["aws", "vault"]}` with eligible key
`credentials`) returns the input unchanged and leaves any lookup dict
untouched. -/
theorem C4_nonstring_recurse (pfx key : String) (keys : List String) (v : Tree)
    (es : List (String × Tree)) (lk : Lookup)
    (hk : keys.contains key = true) (hv : v.isStr = false) :
    recursive_prefix_lookup (.map ((key, v) :: es)) pfx keys lk
      = (.map ((key, (recursive_prefix_lookup v pfx keys lk).1)
          :: (rwEntries es pfx keys (recursive_prefix_lookup v pfx keys lk).2).1),
         (rwEntries es pfx keys (recursive_prefix_lookup v pfx keys lk).2).2) ∧
    (∀ lk' : Lookup,
      recursive_prefix_lookup (.map [("credentials", .seq [.str "aws", .str "vault"])])
        "dev_" ["credentials"] lk'
        = (.map [("credentials", .seq [.str "aws", .str "vault"])], lk')) := by
  constructor
  · have hcond : ¬ (keys.contains key && v.isStr) = true := by
      rw [hk, hv]; simp
    rw [rw_map_eq, rwEntries_skip es lk hcond]
  · intro lk'
    simp [recursive_prefix_lookup, rwEntries, rwItems, startswith, Tree.isStr,
          Tree.strVal, dictSet]

/-- C4 witness: the general part applied at key `credentials` with the
list value of Scenario 3 and an empty lookup. -/
theorem C4_nonstring_recurse_witness :
    recursive_prefix_lookup (.map [("credentials", Tree.seq [.str "aws", .str "vault"])])
        "dev_" ["credentials"] []
      = (.map (("credentials",
            (recursive_prefix_lookup (Tree.seq [.str "aws", .str "vault"])
              "dev_" ["credentials"] []).1)
          :: (rwEntries [] "dev_" ["credentials"]
              (recursive_prefix_lookup (Tree.seq [.str "aws", .str "vault"])
                "dev_" ["credentials"] []).2).1),
         (rwEntries [] "dev_" ["credentials"]
            (recursive_prefix_lookup (Tree.seq [.str "aws", .str "vault"])
              "dev_" ["credentials"] []).2).2) :=
  (C4_nonstring_recurse "dev_" "credentials" ["credentials"]
    (Tree.seq [.str "aws", .str "vault"]) [] [] (by decide) rfl).1

/-- C5: the both-sequence diff pairwise-compares the aligned elements and
then emits only one-sided records for the longer side, never both;
Scenario 4 (`["a","b"]` vs `["a","x","c"]`) yields exactly the mismatch at
`[1]` followed by the addition at `[2]`. -/
theorem C5_sequence_diff :
    (∀ (l1 l2 : List Tree) (path : String),
      diff_dict (.seq l1) (.seq l2) path
        = diffPairs l1 l2 path 0
          ++ (if l1.length ≤ l2.length
              then (List.enumFrom l1.length (l2.drop l1.length)).map
                  (fun iv => (path ++ "[" ++ toString iv.1 ++ "]", none, some iv.2))
              else (List.enumFrom l2.length (l1.drop l2.length)).map
                  (fun iv => (path ++ "[" ++ toString iv.1 ++ "]", some iv.2, none)))) ∧
    diff_dict (.seq [.str "a", .str "b"]) (.seq [.str "a", .str "x", .str "c"]) ""
      = [("[1]", some (.str "b"), some (.str "x")), ("[2]", none, some (.str "c"))] := by
  refine ⟨diff_seq_split, ?_⟩
  simp [diff_dict, diffPairs, Tree.beq, List.enumFrom]
  refine ⟨by decide, by decide⟩

/-- C6: lookup fidelity — every Change Record between a tree and its rewrite
whose old and new values are both strings with the new one starting with the
prefix satisfies `lookup[old] = new` in the final lookup dict. -/
theorem C6_lookup_fidelity (data : Tree) (pfx : String) (keys : List String)
    (lk : Lookup) (path p a b : String)
    (hmem : (p, some (.str a), some (.str b)) ∈
      diff_dict data (recursive_prefix_lookup data pfx keys lk).1 path)
    (hpre : startswith b pfx = true) :
    lookGet (recursive_prefix_lookup data pfx keys lk).2 a = some b := by
  obtain ⟨hb, hl⟩ := rw_diff_lookup data pfx keys lk path p a b hmem
  rw [hb]
  exact hl

/-- C6 witness: the single record of Scenario 1 restricted to one key. -/
theorem C6_lookup_fidelity_witness :
    lookGet (recursive_prefix_lookup (.map [("name", .str "web")]) "dev_" ["name"] []).2 "web"
      = some "dev_web" :=
  C6_lookup_fidelity (.map [("name", .str "web")]) "dev_" ["name"] [] "" "name" "web" "dev_web"
    (by simp [recursive_prefix_lookup, rwEntries, diff_dict, diffKeys, unionKeys, keysOf,
          dictGet, Tree.beq, startswith, Tree.isStr, Tree.strVal, dictSet])
    (by decide)

/-- C7: the serialization style policy — a string gets the literal block
style exactly when it contains a newline or one of `"`, `'`, `\`, `<`, `>`,
and the default scalar style otherwise. -/
theorem C7_style_policy (s : String) :
    (represent_multiline_str s = .literal
      ↔ ('\n' ∈ s.data ∨ '"' ∈ s.data ∨ '\x27' ∈ s.data ∨ '\\' ∈ s.data
          ∨ '<' ∈ s.data ∨ '>' ∈ s.data)) ∧
    (represent_multiline_str s = .plain
      ↔ ¬ ('\n' ∈ s.data ∨ '"' ∈ s.data ∨ '\x27' ∈ s.data ∨ '\\' ∈ s.data
          ∨ '<' ∈ s.data ∨ '>' ∈ s.data)) := by
  have hiff : (s.data.contains '\n'
      || (['"', '\x27', '\\', '<', '>'].any (fun c => s.data.contains c))) = true
      ↔ ('\n' ∈ s.data ∨ '"' ∈ s.data ∨ '\x27' ∈ s.data ∨ '\\' ∈ s.data
          ∨ '<' ∈ s.data ∨ '>' ∈ s.data) := by
    constructor
    · intro h
      simp [List.contains, List.any_eq_true] at h
      tauto
    · intro h
      simp [List.contains, List.any_eq_true]
      tauto
  unfold represent_multiline_str
  cases hcc : (s.data.contains '\n'
      || (['"', '\x27', '\\', '<', '>'].any (fun c => s.data.contains c))) with
  | true =>
    rw [if_pos rfl]
    refine ⟨⟨fun _ => hiff.mp hcc, fun _ => rfl⟩,
            ⟨fun h => Style.noConfusion h, fun hn => (hn (hiff.mp hcc)).elim⟩⟩
  | false =>
    rw [if_neg (by simp)]
    have hne : ¬ ((s.data.contains '\n'
        || (['"', '\x27', '\\', '<', '>'].any (fun c => s.data.contains c))) = true) := by
      rw [hcc]; simp
    refine ⟨⟨fun h => Style.noConfusion h, fun h => absurd (hiff.mpr h) hne⟩,
            ⟨fun _ hd => absurd (hiff.mpr hd) hne, fun _ => rfl⟩⟩

/-- C8 counterexample: a single-file run whose file parses and rewrites but
fails during dumping is reported as failed, yet the final lookup table holds
the entry inserted by that failed file's rewrite. -/
theorem C8_counterexample :
    runFiles [({ name := "projects.yaml", present := true,
                 parsed := .ok (.map [("name", .str "web")]),
                 dumpErr := some "boom" }, ["name"])] "dev_" []
      = ([Report.failed "projects.yaml" "boom"], [("web", "dev_web")]) := by
  simp [runFiles, process_yaml_file, recursive_prefix_lookup, rwEntries, rwItems,
        startswith, Tree.isStr, Tree.strVal, dictSet]

/-- C8 amended: when a present file fails, the resilient loop reports a
failure naming the file and the cause and continues with the remaining
files; a parse failure passes the lookup through unchanged, but a failure
at the dump step keeps the failed file's rewrite mutations in the lookup. -/
theorem C8_amended_behavior (f : YFile) (keys : List String)
    (rest : List (YFile × List String)) (pfx : String) (lk : Lookup) :
    (∀ e, f.present = true → f.parsed = .error e →
      runFiles ((f, keys) :: rest) pfx lk
        = (Report.failed f.name e :: (runFiles rest pfx lk).1,
           (runFiles rest pfx lk).2)) ∧
    (∀ e t, f.present = true → f.parsed = .ok t → f.dumpErr = some e →
      runFiles ((f, keys) :: rest) pfx lk
        = (Report.failed f.name e
            :: (runFiles rest pfx (recursive_prefix_lookup t pfx keys lk).2).1,
           (runFiles rest pfx (recursive_prefix_lookup t pfx keys lk).2).2)) := by
  constructor
  · intro e hp he
    simp [runFiles, hp, process_yaml_file, he]
  · intro e t hp ht hd
    simp [runFiles, hp, process_yaml_file, ht, hd]

/-- C8 amended witness: the dump-failure half applied to the counterexample
file with no remaining files. -/
theorem C8_amended_behavior_witness :
    runFiles [(({ name := "projects.yaml", present := true,
                  parsed := .ok (.map [("name", .str "web")]),
                  dumpErr := some "boom" } : YFile), ["name"])] "dev_" []
      = (Report.failed "projects.yaml" "boom"
          :: (runFiles [] "dev_"
              (recursive_prefix_lookup (.map [("name", .str "web")]) "dev_" ["name"] []).2).1,
         (runFiles [] "dev_"
            (recursive_prefix_lookup (.map [("name", .str "web")]) "dev_" ["name"] []).2).2) :=
  (C8_amended_behavior
      { name := "projects.yaml", present := true,
        parsed := .ok (.map [("name", .str "web")]), dumpErr := some "boom" }
      ["name"] [] "dev_" []).2 "boom" (.map [("name", .str "web")]) rfl rfl rfl

/-- C9: the lookup-table invariant — if every entry of the lookup dict is
canonical for the prefix (old value not starting with the prefix, mapped to
exactly `prefix ++ old`, which starts with the prefix), then this still
holds after any rewrite call. -/
theorem C9_table_invariant (data : Tree) (pfx : String) (keys : List String)
    (lk : Lookup) (h : TableInv pfx lk) :
    TableInv pfx (recursive_prefix_lookup data pfx keys lk).2 :=
  rw_tableInv data pfx keys lk h

/-- C9 witness: the invariant holds for the table produced from the empty
table by rewriting Scenario 1's single-key tree. -/
theorem C9_table_invariant_witness :
    TableInv "dev_" (recursive_prefix_lookup (.map [("name", .str "web")])
      "dev_" ["name"] []).2 :=
  C9_table_invariant (.map [("name", .str "web")]) "dev_" ["name"] []
    (fun a b hb => by simp [lookGet] at hb)

/-- C10: with the empty prefix the rewriter returns its input tree and
lookup unchanged, and the subsequent diff of every document is empty — the
whole run is a no-op. -/
theorem C10_empty_prefix_noop (data : Tree) (keys : List String) (lk : Lookup) :
    recursive_prefix_lookup data "" keys lk = (data, lk) ∧
    diff_dict data (recursive_prefix_lookup data "" keys lk).1 "" = [] := by
  refine ⟨rw_emptyPrefix data keys lk, ?_⟩
  rw [rw_emptyPrefix data keys lk]
  exact diff_self data ""

end Aap
